import Mathlib

/-!
Verification development for the Cosmos workflow engine
(`cosmos/Workflow/models.py`): the DAG scheduler (`WorkflowManager`),
the job-attempt lifecycle of `Workflow.run`, the terminate protocol,
stage bookkeeping (`add_stage`), `TaskFile` format inference, bulk
deletion, and the intermediate-file garbage collector.

Statuses and identifiers are modelled exactly as the source stores
them: task/stage ids are integers, statuses the four strings of
`status_choices`, timestamps abstract clock readings (`Nat`).
-/

namespace Cosmos

/-- The four values of `status_choices` in `Workflow/models.py`. -/
inductive Status
  | no_attempt
  | in_progress
  | successful
  | failed
deriving DecidableEq, Repr

/-- The queue states a `JobAttempt` moves through (`not_submitted` on
creation, `queued` after `submit_job`, `completed` on termination). -/
inductive QueueStatus
  | not_submitted
  | queued
  | completed
deriving DecidableEq, Repr

/-! ## The in-memory DAG of `WorkflowManager`

`createDiGraph` builds a `networkx.DiGraph` whose nodes are task ids
annotated with `status` and `cleared_output_files` (plus tags/stage/url,
which no claim touches).  Removing a node removes its incident edges,
as `networkx` does. -/

/-- A node of the scheduler graph: a task id with the attributes
`createDiGraph` stores on it that the claims consult. -/
structure DagNode where
  id : Nat
  status : Status
  cleared_output_files : Bool
deriving DecidableEq, Repr

/-- The `networkx.DiGraph` of `WorkflowManager`: nodes with attributes
and directed parent→child edges over task ids. -/
structure Dag where
  nodes : List DagNode
  edges : List (Nat × Nat)
deriving DecidableEq, Repr

/-- The task ids present in the graph. -/
def Dag.nodeIds (g : Dag) : List Nat :=
  g.nodes.map (fun n => n.id)

/-- `dag.successors(t)`: children of `t` along the directed edges. -/
def Dag.successors (g : Dag) (t : Nat) : List Nat :=
  (g.edges.filter (fun e => e.1 == t)).map (fun e => e.2)

/-- `dag.predecessors(t)`: parents of `t` along the directed edges. -/
def Dag.predecessors (g : Dag) (t : Nat) : List Nat :=
  (g.edges.filter (fun e => e.2 == t)).map (fun e => e.1)

/-- `dag.node[t]['status']` (defaulting when the node is absent, which
the scheduler never relies on). -/
def Dag.statusOf (g : Dag) (t : Nat) : Status :=
  match g.nodes.find? (fun n => n.id == t) with
  | some n => n.status
  | none => Status.no_attempt

/-- `dag.in_degree()[t]`: the number of edges into `t`. -/
def Dag.inDegree (g : Dag) (t : Nat) : Nat :=
  (g.edges.filter (fun e => e.2 == t)).length

/-- `dag.remove_node(t)`: drops the node and, as in `networkx`, every
edge incident to it. -/
def Dag.removeNode (g : Dag) (t : Nat) : Dag :=
  { nodes := g.nodes.filter (fun n => !(n.id == t))
    edges := g.edges.filter (fun e => !(e.1 == t) && !(e.2 == t)) }

/-- `dag.remove_nodes_from(ids)`: drops every listed node and all
edges incident to any of them. -/
def Dag.removeNodesFrom (g : Dag) (ids : List Nat) : Dag :=
  { nodes := g.nodes.filter (fun n => !(ids.contains n.id))
    edges := g.edges.filter (fun e => !(ids.contains e.1) && !(ids.contains e.2)) }

/-- `WorkflowManager.createDiGraph`: adds the workflow's task edges
(whose endpoints `networkx` auto-creates) and then a node per task
carrying its attributes.  Endpoints that are not among the given tasks
keep default attributes. -/
def createDiGraph (taskNodes : List DagNode) (edges : List (Nat × Nat)) : Dag :=
  let ids := taskNodes.map (fun n => n.id)
  let endpointIds := (edges.map (fun e => e.1) ++ edges.map (fun e => e.2)).dedup
  { nodes := (endpointIds.filter (fun i => !(ids.contains i))).map
      (fun i => { id := i, status := Status.no_attempt, cleared_output_files := false })
      ++ taskNodes
    edges := edges }

/-- The scheduler state of `WorkflowManager.__init__`: the full `dag`,
the working copy `dag_queue`, and the `queued_tasks` list. -/
structure WorkflowManager where
  dag : Dag
  dag_queue : Dag
  queued_tasks : List Nat
deriving DecidableEq, Repr

/-- `WorkflowManager.__init__(workflow)`: builds the graph, copies it,
and removes from the copy every task already `successful` in the
database (`workflow.tasks.filter(successful=True)`). -/
def WorkflowManager.init (taskNodes : List DagNode) (edges : List (Nat × Nat))
    (successfulIds : List Nat) : WorkflowManager :=
  let dag := createDiGraph taskNodes edges
  { dag := dag
    dag_queue := dag.removeNodesFrom successfulIds
    queued_tasks := [] }

/-- `WorkflowManager.queue_task(task)`: append the task id to
`queued_tasks`. -/
def WorkflowManager.queue_task (wm : WorkflowManager) (t : Nat) : WorkflowManager :=
  { wm with queued_tasks := wm.queued_tasks ++ [t] }

/-- `WorkflowManager.get_ready_tasks`: tasks of `dag_queue` with
in-degree zero that are not already in `queued_tasks`. -/
def WorkflowManager.get_ready_tasks (wm : WorkflowManager) : List Nat :=
  let degree_0_tasks := wm.dag_queue.nodeIds.filter (fun n => wm.dag_queue.inDegree n == 0)
  degree_0_tasks.filter (fun n => !(wm.queued_tasks.contains n))

/-- `WorkflowManager.complete_task(task)`: remove the node from
`dag_queue` and stamp the task's final status on the full `dag`. -/
def WorkflowManager.complete_task (wm : WorkflowManager) (t : Nat) (st : Status) :
    WorkflowManager :=
  { wm with
    dag_queue := wm.dag_queue.removeNode t
    dag := { wm.dag with
      nodes := wm.dag.nodes.map (fun n => if n.id == t then { n with status := st } else n) } }

/-- `WorkflowManager.is_task_intermediate(task_id)`: `True` when the
node has at least one predecessor and at least one successor and some
successor's recorded status is `successful`; the Python function
otherwise falls through and returns `None`, which its only caller
treats as false. -/
def WorkflowManager.is_task_intermediate (g : Dag) (t : Nat) : Bool :=
  let successors := g.successors t
  if 0 < (g.predecessors t).length ∧ 0 < successors.length then
    successors.any (fun s => g.statusOf s == Status.successful)
  else
    false

/-- The `intermediate_tasks` list computed by
`WorkflowManager.clear_intermediate_tasks`: nodes whose
`cleared_output_files` attribute is false and that
`is_task_intermediate` classifies as intermediate. -/
def gcCandidates (g : Dag) : List Nat :=
  ((g.nodes.filter (fun n => !n.cleared_output_files)).map (fun n => n.id)).filter
    (fun i => WorkflowManager.is_task_intermediate g i)

/-! ## The job-attempt lifecycle of `Workflow.run`

Only two places ever create a `JobAttempt` for a task: `_run_task`
(dispatch of a ready task, guarded in `run_ready_tasks` by membership
in `queued_tasks`, which only grows) and `_reattempt_task` (guarded by
`task.jobAttempts.count() < workflow.max_reattempts`).  `_run_task`
returns `'NOOP'` before `add_jobAttempt` when `task.NOOP`, so NOOP
tasks never receive an attempt.  The transition system below records
the `queued_tasks` list and the per-task attempt counts; every other
event of `run` (collecting completions, `_has_finished`, `terminate`)
leaves both unchanged. -/

/-- The attempt-relevant state of a running workflow: the scheduler's
`queued_tasks` and each task's `jobAttempts.count()`. -/
structure ExecState where
  queued : List Nat
  attempts : Nat → Nat

/-- State at the start of `run`: nothing queued, and (for a fresh or
reloaded workflow) no attempts recorded for any pending task. -/
def initExec : ExecState :=
  { queued := [], attempts := fun _ => 0 }

/-- Increment one task's attempt count. -/
def bump (f : Nat → Nat) (t : Nat) : Nat → Nat :=
  fun u => if u = t then f u + 1 else f u

/-- Effect of `Workflow._run_task(task)` on attempt counts: a NOOP
task returns before `add_jobAttempt`; any other task gets exactly one
new `JobAttempt`. -/
def runTaskAttempts (noop : Nat → Bool) (att : Nat → Nat) (t : Nat) : Nat → Nat :=
  if noop t then att else bump att t

/-- The attempt-creating events of `Workflow.run`, parameterised by
each task's `NOOP` flag and by `workflow.max_reattempts`:

* `dispatch`: `run_ready_tasks` queues a task not yet in
  `queued_tasks` and calls `_run_task` on it;
* `reattempt`: a completion arrives for a previously dispatched task
  and `_reattempt_task` finds `task.jobAttempts.count() <
  max_reattempts`, so it calls `_run_task` again (when the count has
  reached the bound it returns `False` and creates nothing). -/
inductive Step (noop : Nat → Bool) (maxR : Nat) : ExecState → ExecState → Prop
  | dispatch (s : ExecState) (t : Nat) (hq : t ∉ s.queued) :
      Step noop maxR s
        { queued := s.queued ++ [t], attempts := runTaskAttempts noop s.attempts t }
  | reattempt (s : ExecState) (t : Nat) (hqd : t ∈ s.queued)
      (hlt : s.attempts t < maxR) :
      Step noop maxR s { s with attempts := runTaskAttempts noop s.attempts t }

/-- States observable during `run`: reachable from the initial state
by the attempt-creating events. -/
inductive Reach (noop : Nat → Bool) (maxR : Nat) : ExecState → Prop
  | init : Reach noop maxR initExec
  | step {s s' : ExecState} : Reach noop maxR s → Step noop maxR s s' →
      Reach noop maxR s'

/-! ## An executable model of the `run_ready_tasks` loop

`Workflow.run` first drains the frontier: `wfDAG.run_ready_tasks()`
dispatches every ready task, then every NOOP task among them is
finished via `_has_finished('NOOP')` and completed in the scheduler,
and the closure recurses while it submitted anything. -/

/-- Scheduler-plus-database state the `run_ready_tasks` loop acts on:
the `WorkflowManager`, each task's attempt count and its `status`
column. -/
structure RunSim where
  wm : WorkflowManager
  attempts : Nat → Nat
  statusOfTask : Nat → Status

/-- `Workflow._run_task(task)`: a NOOP task returns immediately;
otherwise the task is set `in_progress`, a `JobAttempt` is added and
submitted.  (Stage bookkeeping and command rendering do not touch the
components modelled here.) -/
def runTaskSim (noop : Nat → Bool) (rs : RunSim) (t : Nat) : RunSim :=
  if noop t then rs
  else
    { rs with
      attempts := bump rs.attempts t
      statusOfTask := fun u => if u = t then Status.in_progress else rs.statusOfTask u }

/-- `Task._has_finished('NOOP')`: the task is marked `successful`. -/
def hasFinishedNOOP (rs : RunSim) (t : Nat) : RunSim :=
  { rs with statusOfTask := fun u => if u = t then Status.successful else rs.statusOfTask u }

/-- `wfDAG.complete_task(task)` on the simulated state. -/
def completeTaskSim (rs : RunSim) (t : Nat) : RunSim :=
  { rs with wm := rs.wm.complete_task t (rs.statusOfTask t) }

/-- One call of `WorkflowManager.run_ready_tasks`: queue and dispatch
every ready task, returning them.  (The `delete_intermediates` GC pass
only clears output files and `cleared_output_files` flags, so it is
modelled separately; the workflows considered here run with
`delete_intermediates=False`.) -/
def runReadyPass (noop : Nat → Bool) (rs : RunSim) : RunSim × List Nat :=
  let ready := rs.wm.get_ready_tasks
  let rs1 := ready.foldl
    (fun acc t => runTaskSim noop { acc with wm := acc.wm.queue_task t } t) rs
  (rs1, ready)

/-- The recursive `run_ready_tasks` closure inside `Workflow.run`:
after a dispatch pass, each submitted NOOP task is finished and
completed, and the closure recurses while the pass submitted anything.
Each recursion strictly grows `queued_tasks`, so the number of graph
nodes bounds the recursion depth; `fuel` makes that bound explicit. -/
def runReadyTasksRec (noop : Nat → Bool) : Nat → RunSim → RunSim
  | 0, rs => rs
  | fuel + 1, rs =>
    let pass := runReadyPass noop rs
    let rs2 := pass.2.foldl
      (fun acc t => if noop t then completeTaskSim (hasFinishedNOOP acc t) t else acc)
      pass.1
    if pass.2.isEmpty then rs2 else runReadyTasksRec noop fuel rs2

/-- The workflow of one `NOOP` task (id 1) and no edges, as
`WorkflowManager(workflow)` would build it at the start of `run`. -/
def singleNoopSim : RunSim :=
  { wm := WorkflowManager.init
      [{ id := 1, status := Status.no_attempt, cleared_output_files := false }] [] []
    attempts := fun _ => 0
    statusOfTask := fun _ => Status.no_attempt }

/-- The NOOP flags of the single-task workflow: task 1 is NOOP. -/
def noopSingle : Nat → Bool := fun t => t == 1

/-! ## Database rows touched by `terminate` and `finished`

`Workflow.terminate` collects the `JobAttempt`s with
`queue_status='queued'`, kills them, bulk-marks their tasks failed,
bulk-marks failed every stage that contains such a task or is not
successful, bulk-completes the attempts, and stamps the workflow's
`finished_on` via `self.finished()`.  Timestamps are abstract clock
readings passed in as `now`. -/

/-- A `JobAttempt` row (the columns `terminate` reads or writes). -/
structure JobAttemptRow where
  id : Nat
  taskId : Nat
  queue_status : QueueStatus
  successful : Bool
  finished_on : Option Nat
deriving DecidableEq, Repr

/-- A `Task` row (the columns `terminate` reads or writes). -/
structure TaskRow where
  id : Nat
  stageId : Nat
  status : Status
  successful : Bool
  finished_on : Option Nat
deriving DecidableEq, Repr

/-- A `Stage` row (the columns `terminate` reads or writes). -/
structure StageRow where
  id : Nat
  status : Status
  successful : Bool
  finished_on : Option Nat
deriving DecidableEq, Repr

/-- The persisted state `terminate` and `finished` act on. -/
structure WorkflowState where
  jobAttempts : List JobAttemptRow
  tasks : List TaskRow
  stages : List StageRow
  finished_on : Option Nat
deriving DecidableEq, Repr

/-- `Workflow.finished()`: stamp `finished_on` with the current time
and save. -/
def finished (now : Nat) (s : WorkflowState) : WorkflowState :=
  { s with finished_on := some now }

/-- `Workflow.terminate()` as a state transformer (the DRM kills and
the final `sys.exit(1)` have no effect on rows):

* `jobAttempts = jobManager.jobAttempts.filter(queue_status='queued')`;
* tasks with a queued attempt: `status='failed'`, `finished_on=now`;
* stages with such a task, or with `successful=False`:
  `status='failed'`, `finished_on=now` (the `successful` column is not
  written);
* the queued attempts: `queue_status='completed'`, `finished_on=now`;
* `self.finished()`. -/
def terminate (now : Nat) (s : WorkflowState) : WorkflowState :=
  let task_ids := (s.jobAttempts.filter
      (fun ja => ja.queue_status == QueueStatus.queued)).map (fun ja => ja.taskId)
  let tasks' := s.tasks.map (fun t =>
    if task_ids.contains t.id then
      { t with status := Status.failed, finished_on := some now }
    else t)
  let stages' := s.stages.map (fun st =>
    if (s.tasks.any (fun t => task_ids.contains t.id && t.stageId == st.id))
        || !st.successful then
      { st with status := Status.failed, finished_on := some now }
    else st)
  let jobAttempts' := s.jobAttempts.map (fun ja =>
    if ja.queue_status == QueueStatus.queued then
      { ja with queue_status := QueueStatus.completed, finished_on := some now }
    else ja)
  finished now { s with tasks := tasks', stages := stages', jobAttempts := jobAttempts' }

/-! ## `Workflow.bulk_delete_tasks`

Used by `__reload` on the tasks with `successful=False`.  The method
filters `JobAttempt`, `TaskTag` and `TaskFile` rows by the tasks being
deleted, but filters `TaskEdge` by `Q(parent=self)|Q(child=self)`
where `self` is the *Workflow*: Django compares the `Task` foreign
keys to the workflow by primary key, so only edges whose parent or
child task id happens to equal the workflow id are deleted. -/

/-- A `Stage` row as `add_stage` sees it: primary key, name, and the
nullable `order_in_workflow` column. -/
structure StageOrderRow where
  id : Nat
  name : String
  order_in_workflow : Option Nat
deriving DecidableEq, Repr

/-- The SQL aggregate
`Stage.objects.filter(workflow=self).aggregate(Max('order_in_workflow'))`:
the maximum of the non-null `order_in_workflow` values, `None` when
there is none. -/
def maxOrder : List StageOrderRow → Option Nat
  | [] => none
  | s :: rest =>
    match s.order_in_workflow, maxOrder rest with
    | none, a => a
    | some k, none => some k
    | some k, some a => some (Nat.max k a)

/-- The workflow-side state `add_stage` acts on: this workflow's
stages, the next primary key the database would assign, and the
workflow's `finished_on` (reset when an existing stage is loaded). -/
structure StageTable where
  stages : List StageOrderRow
  nextId : Nat
  finished_on : Option Nat
deriving DecidableEq, Repr

/-- The order computation of `add_stage`: `1` when the aggregate is
`None`, else `m + 1`. -/
def nextOrder : Option Nat → Nat
  | none => 1
  | some m => m + 1

/-- `Workflow.add_stage(name)` (for a name already normalised by the
whitespace substitution): compute `order_in_workflow = max+1` (or 1),
`get_or_create` the stage by name, on a load reset the workflow's
`finished_on`, then assign the order and save.  Returns the stage row
as saved plus the new state. -/
def add_stage (w : StageTable) (name : String) : StageOrderRow × StageTable :=
  let order_in_workflow : Nat := nextOrder (maxOrder w.stages)
  match w.stages.find? (fun s => s.name == name) with
  | some s =>
    let s' := { s with order_in_workflow := some order_in_workflow }
    (s', { w with
      stages := w.stages.map (fun r => if r.id == s.id then s' else r)
      finished_on := none })
  | none =>
    let s' : StageOrderRow :=
      { id := w.nextId, name := name, order_in_workflow := some order_in_workflow }
    (s', { w with stages := w.stages ++ [s'], nextId := w.nextId + 1 })

/-! ## `Task.clear_job_output_dir` and the GC pass

The on-disk job output is modelled as `(task id, file id)` pairs. -/

/-- The `Task` columns `clear_job_output_dir` reads or writes. -/
structure TaskGC where
  id : Nat
  dont_delete_output_files : Bool
  cleared_output_files : Bool
deriving DecidableEq, Repr

/-- `Task.clear_job_output_dir()`: unless `dont_delete_output_files`,
remove every file under the task's `job_output_dir`; in every case set
`cleared_output_files=True` and save. -/
def clear_job_output_dir (t : TaskGC) (fs : List (Nat × Nat)) :
    TaskGC × List (Nat × Nat) :=
  let fs' := if t.dont_delete_output_files then fs
    else fs.filter (fun f => !(f.1 == t.id))
  ({ t with cleared_output_files := true }, fs')

/-! ## `TaskFile.__init__` format inference

When no `fmt` is given and the path is non-empty, the source runs
`re.search('.+\.([^\.]+\.gz)$|\.([^\.]+)$', path)` and takes
`groups[0] if groups[0] else groups[1]`; a failed search raises
`AttributeError`.  Python `re` details that matter: `.` matches any
character except a newline; a negated class `[^\.]` matches any
character except a dot, a newline included; `$` matches at the end of
the string and also just before a newline that is the last character.

Alternative 1, `.+\.([^\.]+\.gz)$`, therefore needs the string to end
in `.gz` or `.gz` followed by one final newline.  The dot of that
`\.gz` is the string's last dot; the group's `[^\.]+` run is delimited
on the left by the previous dot, so the `\.` before the group sits at
the last dot before it — both are forced, whatever the backtracking
order.  The leading `.+` needs at least one character before that dot
on a newline-free stretch, so it succeeds iff the character
immediately before that dot exists and is not a newline.  Its match
positions all lie strictly left of the string's last dot.

Alternative 2, `\.([^\.]+)$`, matches only at the string's last dot,
when at least one character follows; the greedy `[^\.]+` runs to the
end of the string, so the group includes a trailing newline.

Since every position where alternative 1 can match lies strictly left
of the only position where alternative 2 can, `re.search` (leftmost
position, first alternative at equal positions) returns the first
group whenever alternative 1 matches anywhere, else the second.  Both
are computed on the reversed character list; `[^.]+` delimited by the
backtracking `\.` is `takeWhile`/`dropWhile` at a dot. -/

/-- Alternative 1 after stripping the reversed `gz.` tail (and the
optional final newline): `rest` is the reversed string up to and
excluding the `\.gz` dot.  The group's run is everything back to the
previous dot (non-empty, dots excluded, newlines allowed), and the
character before that dot — the last one the `.+` must cover — must
exist and not be a newline. -/
def revGroup1Core (rest : List Char) : Option (List Char) :=
  let x := rest.takeWhile (fun c => c != '.')
  if x = [] then none
  else
    match rest.dropWhile (fun c => c != '.') with
    | d :: c :: _ =>
      if d = '.' ∧ c ≠ '\n' then some (x.reverse ++ ['.', 'g', 'z']) else none
    | _ => none

/-- The first alternative `.+\.([^\.]+\.gz)$` applied to the reversed
path: `$` anchors either at the end of the string (reversed path
starting `zg.`) or before one final newline (reversed path starting
`\nzg.`); the two tails are mutually exclusive.  The group is
`X.gz`. -/
def revGroup1 (r : List Char) : Option (List Char) :=
  match r with
  | c1 :: c2 :: c3 :: rest =>
    if c1 = 'z' ∧ c2 = 'g' ∧ c3 = '.' then revGroup1Core rest
    else
      match rest with
      | c4 :: rest2 =>
        if c1 = '\n' ∧ c2 = 'z' ∧ c3 = 'g' ∧ c4 = '.' then revGroup1Core rest2
        else none
      | [] => none
  | _ => none

/-- The second alternative `\.([^\.]+)$` applied to the reversed path:
a non-empty dot-free suffix (greedy to the very end of the string, a
trailing newline included) preceded by a dot; the group is that
suffix, the text after the path's last dot. -/
def revGroup2 (r : List Char) : Option (List Char) :=
  let x := r.takeWhile (fun c => c != '.')
  if x = [] then none
  else
    match r.dropWhile (fun c => c != '.') with
    | d :: _ => if d = '.' then some x.reverse else none
    | _ => none

/-- The whole `re.search` plus `groups[0] if groups[0] else groups[1]`:
alternative 1 wins whenever it matches (its positions are leftmost),
else alternative 2; `none` is the `AttributeError` case. -/
def inferFmt (path : List Char) : Option (List Char) :=
  match revGroup1 path.reverse with
  | some g => some g
  | none => revGroup2 path.reverse

/-- A `TaskFile` as `__init__` leaves it (paths and names as character
lists; `none` models a field that was not given). -/
structure TaskFile where
  path : List Char
  name : Option (List Char)
  fmt : Option (List Char)
deriving DecidableEq, Repr

/-- `TaskFile.__init__(path=…, name=…, fmt=…)`: when `fmt` is not
given and `path` is truthy, infer `fmt` from the path (`none` models
the `AttributeError` on a failed search); then, when `name` is not
given and `fmt` is set, `name = fmt`. -/
def TaskFile.make (path : List Char) (name fmt : Option (List Char)) :
    Option TaskFile :=
  let inferred : Option (Option (List Char)) :=
    if fmt = none ∧ path ≠ [] then
      match inferFmt path with
      | none => none
      | some f => some (some f)
    else some fmt
  match inferred with
  | none => none
  | some f =>
    let n := if name = none ∧ f ≠ none then f else name
    some { path := path, name := n, fmt := f }

/-- The decomposition the claim's `<something>.<X>.gz` case denotes:
a non-empty prefix, a dot, a non-empty dot-free `X`, and the literal
`.gz`. -/
def gzDecomp (path a x : List Char) : Prop :=
  a ≠ [] ∧ x ≠ [] ∧ '.' ∉ x ∧ path = a ++ '.' :: (x ++ ['.', 'g', 'z'])

/-- The decomposition under which the regex's first alternative
actually fires: `<something>` ends in a character `c` that is not a
newline (the `.+` must cover it), `X` is non-empty and dot-free
(newlines allowed, `[^\.]` matches them), and the `$` permits one
final newline after the `.gz`. -/
def gzSearchMatch (path pre : List Char) (c : Char) (x : List Char) (nl : Bool) :
    Prop :=
  c ≠ '\n' ∧ x ≠ [] ∧ '.' ∉ x ∧
  path = pre ++ c :: '.' :: (x ++ ['.', 'g', 'z'] ++ (if nl then ['\n'] else []))

/-! ## Helper lemmas -/

theorem map_eq_self {α : Type} {l : List α} {f : α → α} (h : ∀ a ∈ l, f a = a) :
    l.map f = l := by
  induction l with
  | nil => rfl
  | cons a t ih =>
    simp only [List.map_cons, h a (List.mem_cons_self a t)]
    rw [ih (fun b hb => h b (List.mem_cons_of_mem a hb))]

/-! ## C4: `is_task_intermediate` -/

/-- C4: `is_task_intermediate(task_id)` classifies a task as
intermediate iff it has at least one predecessor, at least one
successor, and at least one successor whose recorded status is
`successful`; consequently a task with no successors is never
classified intermediate. -/
theorem C4_is_task_intermediate_spec (g : Dag) (t : Nat) :
    (WorkflowManager.is_task_intermediate g t = true ↔
      (g.predecessors t ≠ [] ∧ g.successors t ≠ [] ∧
        ∃ s ∈ g.successors t, g.statusOf s = Status.successful)) ∧
    (g.successors t = [] → WorkflowManager.is_task_intermediate g t = false) := by
  constructor
  · unfold WorkflowManager.is_task_intermediate
    by_cases h : 0 < (g.predecessors t).length ∧ 0 < (g.successors t).length
    · rw [if_pos h]
      simp only [List.any_eq_true, beq_iff_eq]
      constructor
      · intro hex
        exact ⟨List.length_pos.mp h.1, List.length_pos.mp h.2, hex⟩
      · intro hr
        exact hr.2.2
    · rw [if_neg h]
      constructor
      · intro hh
        exact absurd hh (by decide)
      · intro hr
        exact absurd ⟨List.length_pos.mpr hr.1, List.length_pos.mpr hr.2.1⟩ h
  · intro hempty
    simp [WorkflowManager.is_task_intermediate, hempty]

/-- Witness for C4 at a chain 1→2→3 with task 3 successful: task 2 is
classified intermediate. -/
theorem C4_witness :
    WorkflowManager.is_task_intermediate
      (Dag.mk
        [DagNode.mk 1 Status.successful false, DagNode.mk 2 Status.in_progress false,
         DagNode.mk 3 Status.successful false]
        [(1, 2), (2, 3)]) 2 = true :=
  (C4_is_task_intermediate_spec
    (Dag.mk
      [DagNode.mk 1 Status.successful false, DagNode.mk 2 Status.in_progress false,
       DagNode.mk 3 Status.successful false]
      [(1, 2), (2, 3)]) 2).1.mpr (by decide)

/-! ## C2: `get_ready_tasks` -/

/-- C2: `get_ready_tasks()` returns exactly the tasks that are nodes
of `dag_queue`, have in-degree zero there, and are not in
`queued_tasks`; moreover tasks already successful at construction are
absent from `dag_queue`, and `complete_task` removes its task from
`dag_queue`. -/
theorem C2_get_ready_tasks_spec (wm : WorkflowManager) (t : Nat) :
    (t ∈ wm.get_ready_tasks ↔
      (t ∈ wm.dag_queue.nodeIds ∧ wm.dag_queue.inDegree t = 0 ∧
        t ∉ wm.queued_tasks)) ∧
    (∀ (taskNodes : List DagNode) (edges : List (Nat × Nat))
        (successfulIds : List Nat), t ∈ successfulIds →
      t ∉ (WorkflowManager.init taskNodes edges successfulIds).dag_queue.nodeIds) ∧
    (∀ st : Status, t ∉ (wm.complete_task t st).dag_queue.nodeIds) := by
  refine ⟨?_, ?_, ?_⟩
  · unfold WorkflowManager.get_ready_tasks
    simp [List.mem_filter, and_assoc]
    tauto
  · intro taskNodes edges successfulIds hmem hin
    unfold WorkflowManager.init Dag.removeNodesFrom Dag.nodeIds at hin
    simp only [List.mem_map, List.mem_filter] at hin
    obtain ⟨n, ⟨_, hc⟩, hid⟩ := hin
    rw [hid] at hc
    simp at hc
    exact hc hmem
  · intro st hin
    unfold WorkflowManager.complete_task Dag.removeNode Dag.nodeIds at hin
    simp only [List.mem_map, List.mem_filter] at hin
    obtain ⟨n, ⟨_, hc⟩, hid⟩ := hin
    rw [hid] at hc
    simp at hc

/-- Witness for C2: in a fresh one-node scheduler, task 1 is ready. -/
theorem C2_witness :
    1 ∈ (WorkflowManager.mk (Dag.mk [DagNode.mk 1 Status.no_attempt false] [])
      (Dag.mk [DagNode.mk 1 Status.no_attempt false] []) []).get_ready_tasks :=
  (C2_get_ready_tasks_spec
    (WorkflowManager.mk (Dag.mk [DagNode.mk 1 Status.no_attempt false] [])
      (Dag.mk [DagNode.mk 1 Status.no_attempt false] []) []) 1).1.mpr (by decide)

/-! ## C10: `clear_job_output_dir` on a protected task -/

/-- C10: for a task with `dont_delete_output_files=True`,
`clear_job_output_dir()` deletes nothing from the job output directory
yet still sets `cleared_output_files=True`; and a task whose graph
node records `cleared_output_files=True` is excluded from the GC
candidate list of `clear_intermediate_tasks`. -/
theorem C10_clear_protected_task (t : TaskGC) (fs : List (Nat × Nat))
    (h : t.dont_delete_output_files = true) :
    (clear_job_output_dir t fs).2 = fs ∧
    (clear_job_output_dir t fs).1.cleared_output_files = true ∧
    (∀ g : Dag, (∀ n ∈ g.nodes, n.id = t.id → n.cleared_output_files = true) →
      t.id ∉ gcCandidates g) := by
  refine ⟨by simp [clear_job_output_dir, h], rfl, ?_⟩
  intro g hg hin
  unfold gcCandidates at hin
  simp only [List.mem_filter, List.mem_map] at hin
  obtain ⟨⟨n, hn, hid⟩, _⟩ := hin
  have := hg n hn.1 hid
  rw [this] at hn
  simp at hn

/-- Witness for C10: a protected, already-cleared task keeps its file
and is not a GC candidate. -/
theorem C10_witness :
    (clear_job_output_dir (TaskGC.mk 4 true false) [(4, 1), (7, 2)]).2 = [(4, 1), (7, 2)] ∧
    (clear_job_output_dir (TaskGC.mk 4 true false) [(4, 1), (7, 2)]).1.cleared_output_files
      = true ∧
    (TaskGC.mk 4 true false).id ∉
      gcCandidates (Dag.mk [DagNode.mk 4 Status.in_progress true] [(3, 4), (4, 9)]) := by
  have h := C10_clear_protected_task (TaskGC.mk 4 true false) [(4, 1), (7, 2)] rfl
  exact ⟨h.1, h.2.1, h.2.2 _ (by decide)⟩

/-! ## C5: `bulk_delete_tasks` and `TaskEdge` filtering -/

/-- C7 counterexample: a second `finished()` at a later clock reading
changes `finished_on`. -/
theorem C7_finished_not_idempotent :
    (finished 2 (finished 1 (WorkflowState.mk [] [] [] none))).finished_on ≠
      (finished 1 (WorkflowState.mk [] [] [] none)).finished_on := by
  decide

/-- C7 amended: `finished()` stamps `finished_on` with the clock
reading of the call, so a second call leaves the second call's
timestamp; the two calls coincide exactly when the clock reading is
unchanged. -/
theorem C7_finished_second_stamp (s : WorkflowState) (now now2 : Nat) :
    (finished now2 (finished now s)).finished_on = some now2 ∧
    finished now (finished now s) = finished now s := by
  simp [finished]

/-! ## C9: `add_stage` called twice -/

/-- C9 counterexample: on an empty workflow, the second
`add_stage("s")` returns the same row (same primary key) but changes
its `order_in_workflow` from 1 to 2, so the stage is not left in the
same state. -/
theorem C9_add_stage_not_idempotent :
    ((add_stage (add_stage (StageTable.mk [] 1 none) "s").2 "s").1.id =
      (add_stage (StageTable.mk [] 1 none) "s").1.id) ∧
    ((add_stage (add_stage (StageTable.mk [] 1 none) "s").2 "s").1.order_in_workflow ≠
      (add_stage (StageTable.mk [] 1 none) "s").1.order_in_workflow) := by
  decide

/-! ## C1 and C6: the job-attempt invariants of `run` -/

/-- One attempt-creating event preserves the run invariant: a task not
yet in `queued_tasks` has no attempts, attempt counts never exceed
`max_reattempts` (when that bound is at least one, which covers the
single dispatch), and a NOOP task never has an attempt. -/
theorem step_invariant {noop : Nat → Bool} {maxR : Nat} {s s' : ExecState}
    (hstep : Step noop maxR s s')
    (ih : ∀ t, (t ∉ s.queued → s.attempts t = 0) ∧
      (1 ≤ maxR → s.attempts t ≤ maxR) ∧ (noop t = true → s.attempts t = 0)) :
    ∀ t, (t ∉ s'.queued → s'.attempts t = 0) ∧
      (1 ≤ maxR → s'.attempts t ≤ maxR) ∧ (noop t = true → s'.attempts t = 0) := by
  cases hstep with
  | dispatch t hq =>
    intro u
    by_cases hn : noop t = true
    · have hatt : runTaskAttempts noop s.attempts t = s.attempts := by
        unfold runTaskAttempts
        rw [hn]
        simp
      refine ⟨?_, ?_, ?_⟩
      · intro hu
        rw [hatt]
        exact (ih u).1 (fun hin => hu (List.mem_append_left _ hin))
      · intro hm
        rw [hatt]
        exact (ih u).2.1 hm
      · intro hnu
        rw [hatt]
        exact (ih u).2.2 hnu
    · have hatt : runTaskAttempts noop s.attempts t = bump s.attempts t := by
        unfold runTaskAttempts
        rw [Bool.not_eq_true] at hn
        rw [hn]
        simp
      by_cases hut : u = t
      · subst hut
        refine ⟨?_, ?_, ?_⟩
        · intro hu
          exact absurd (List.mem_append_right _ (List.mem_singleton.mpr rfl)) hu
        · intro hm
          rw [hatt]
          unfold bump
          simp only [if_pos rfl]
          rw [(ih u).1 hq]
          exact hm
        · intro hnu
          rw [Bool.not_eq_true] at hn
          rw [hnu] at hn
          exact absurd hn (by simp)
      · have hbu : (bump s.attempts t) u = s.attempts u := by
          unfold bump
          rw [if_neg hut]
        refine ⟨?_, ?_, ?_⟩
        · intro hu
          rw [hatt]
          show bump s.attempts t u = 0
          rw [hbu]
          exact (ih u).1 (fun hin => hu (List.mem_append_left _ hin))
        · intro hm
          rw [hatt]
          show bump s.attempts t u ≤ maxR
          rw [hbu]
          exact (ih u).2.1 hm
        · intro hnu
          rw [hatt]
          show bump s.attempts t u = 0
          rw [hbu]
          exact (ih u).2.2 hnu
  | reattempt t hqd hlt =>
    intro u
    by_cases hn : noop t = true
    · have hatt : runTaskAttempts noop s.attempts t = s.attempts := by
        unfold runTaskAttempts
        rw [hn]
        simp
      refine ⟨?_, ?_, ?_⟩
      · intro hu
        rw [hatt]
        exact (ih u).1 hu
      · intro hm
        rw [hatt]
        exact (ih u).2.1 hm
      · intro hnu
        rw [hatt]
        exact (ih u).2.2 hnu
    · have hatt : runTaskAttempts noop s.attempts t = bump s.attempts t := by
        unfold runTaskAttempts
        rw [Bool.not_eq_true] at hn
        rw [hn]
        simp
      by_cases hut : u = t
      · subst hut
        refine ⟨?_, ?_, ?_⟩
        · intro hu
          exact absurd hqd hu
        · intro _
          rw [hatt]
          unfold bump
          simp only [if_pos rfl]
          exact hlt
        · intro hnu
          rw [Bool.not_eq_true] at hn
          rw [hnu] at hn
          exact absurd hn (by simp)
      · have hbu : (bump s.attempts t) u = s.attempts u := by
          unfold bump
          rw [if_neg hut]
        refine ⟨?_, ?_, ?_⟩
        · intro hu
          rw [hatt]
          show bump s.attempts t u = 0
          rw [hbu]
          exact (ih u).1 hu
        · intro hm
          rw [hatt]
          show bump s.attempts t u ≤ maxR
          rw [hbu]
          exact (ih u).2.1 hm
        · intro hnu
          rw [hatt]
          show bump s.attempts t u = 0
          rw [hbu]
          exact (ih u).2.2 hnu

/-- The run invariant holds at every reachable state. -/
theorem exec_invariant {noop : Nat → Bool} {maxR : Nat} {s : ExecState}
    (h : Reach noop maxR s) :
    ∀ t, (t ∉ s.queued → s.attempts t = 0) ∧
      (1 ≤ maxR → s.attempts t ≤ maxR) ∧
      (noop t = true → s.attempts t = 0) := by
  induction h with
  | init =>
    intro t
    exact ⟨fun _ => rfl, fun _ => Nat.zero_le _, fun _ => rfl⟩
  | step _ hstep ih =>
    exact step_invariant hstep ih

/-- C1: at every state observable during and after `run`, every task's
`jobAttempts.count()` is at most `workflow.max_reattempts` (which the
engine always runs with at least 1; the field defaults to 3):
`_run_task` creates the single first attempt of a freshly queued task,
and `_reattempt_task` creates one only while the count is below the
bound, otherwise returning `False`. -/
theorem C1_jobattempts_le_max_reattempts (noop : Nat → Bool) (maxR : Nat)
    (s : ExecState) (hmax : 1 ≤ maxR) (hreach : Reach noop maxR s) (t : Nat) :
    s.attempts t ≤ maxR :=
  ((exec_invariant hreach t).2.1) hmax

/-- Witness for C1: after dispatching task 1 once with
`max_reattempts = 3`, its attempt count respects the bound. -/
theorem C1_witness :
    1 ≤ 3 ∧
    (ExecState.mk ([] ++ [1])
      (runTaskAttempts (fun _ => false) initExec.attempts 1)).attempts 1 ≤ 3 := by
  refine ⟨by decide, ?_⟩
  exact C1_jobattempts_le_max_reattempts (fun _ => false) 3 _ (by decide)
    (Reach.step Reach.init (Step.dispatch initExec 1 (by simp [initExec]))) 1

/-- C6: a NOOP task is never submitted — at every observable state of
`run` its attempt count is zero — and the workflow consisting of the
single NOOP task 1 drains its scheduler queue with the task
`successful` and zero `JobAttempt`s created, so the completion loop
over `yield_all_queued_jobs` has nothing to drain. -/
theorem C6_noop_never_submitted :
    (∀ (noop : Nat → Bool) (maxR : Nat) (s : ExecState), Reach noop maxR s →
      ∀ t, noop t = true → s.attempts t = 0) ∧
    ((runReadyTasksRec noopSingle 2 singleNoopSim).attempts 1 = 0 ∧
      (runReadyTasksRec noopSingle 2 singleNoopSim).statusOfTask 1 = Status.successful ∧
      (runReadyTasksRec noopSingle 2 singleNoopSim).wm.dag_queue.nodeIds = []) := by
  constructor
  · intro noop maxR s h t ht
    exact (exec_invariant h t).2.2 ht
  · exact ⟨rfl, rfl, rfl⟩

/-- Witness for C6: dispatching NOOP task 5 leaves its attempt count
at zero. -/
theorem C6_witness :
    (ExecState.mk ([] ++ [5])
      (runTaskAttempts (fun _ => true) initExec.attempts 5)).attempts 5 = 0 :=
  C6_noop_never_submitted.1 (fun _ => true) 3 _
    (Reach.step Reach.init (Step.dispatch initExec 5 (by simp [initExec]))) 5 rfl

/-! ## C3: `terminate()` on an already-terminated workflow -/

/-- On a state with no queued job attempts, `terminate` touches no
`JobAttempt` and no `Task` row: it re-stamps `status='failed'` and
`finished_on` on every stage with `successful=False` and stamps the
workflow's `finished_on`. -/
theorem terminate_of_no_queued (now : Nat) {s : WorkflowState}
    (hq : ∀ ja ∈ s.jobAttempts, ja.queue_status ≠ QueueStatus.queued) :
    terminate now s = { s with
      stages := s.stages.map (fun st =>
        if !st.successful then
          { st with status := Status.failed, finished_on := some now }
        else st)
      finished_on := some now } := by
  have hfil : s.jobAttempts.filter (fun ja => ja.queue_status == QueueStatus.queued) = [] := by
    rw [List.filter_eq_nil_iff]
    intro ja hja
    simp only [beq_iff_eq]
    exact hq ja hja
  unfold terminate finished
  rw [hfil]
  simp only [List.map_nil, WorkflowState.mk.injEq]
  refine ⟨?_, ?_, ?_, trivial⟩
  · apply map_eq_self
    intro ja hja
    rw [if_neg]
    simp only [beq_iff_eq]
    exact hq ja hja
  · apply map_eq_self
    intro t _
    rw [if_neg]
    simp
  · apply List.map_congr_left
    intro st _
    have hany : (s.tasks.any fun t => ([] : List Nat).contains t.id && t.stageId == st.id)
        = false := by
      simp
    simp only [hany, Bool.false_or]

/-- Every stage of a terminated state that is not `successful` carries
`status='failed'` and the terminate timestamp. -/
theorem terminate_stage_prop (now : Nat) (s : WorkflowState) :
    ∀ st ∈ (terminate now s).stages, st.successful = false →
      st.status = Status.failed ∧ st.finished_on = some now := by
  intro st hst hsucc
  simp only [terminate, finished] at hst
  obtain ⟨st0, hst0, hval⟩ := List.mem_map.mp hst
  by_cases hc : ((s.tasks.any fun t =>
      ((s.jobAttempts.filter fun ja => ja.queue_status == QueueStatus.queued).map
        fun ja => ja.taskId).contains t.id && t.stageId == st0.id) || !st0.successful) = true
  · rw [if_pos hc] at hval
    rw [← hval]
    exact ⟨rfl, rfl⟩
  · rw [if_neg hc] at hval
    simp only [Bool.or_eq_true, Bool.not_eq_true', not_or] at hc
    rw [← hval] at hsucc
    rw [hsucc] at hc
    exact absurd rfl hc.2

/-- A terminated state has no queued job attempts. -/
theorem terminate_no_queued (now : Nat) (s : WorkflowState) :
    ∀ ja ∈ (terminate now s).jobAttempts, ja.queue_status ≠ QueueStatus.queued := by
  intro ja hja
  simp only [terminate, finished] at hja
  obtain ⟨ja0, _, hval⟩ := List.mem_map.mp hja
  by_cases hc : (ja0.queue_status == QueueStatus.queued) = true
  · rw [if_pos hc] at hval
    rw [← hval]
    simp
  · rw [if_neg hc] at hval
    rw [← hval]
    simp only [beq_iff_eq] at hc
    exact hc

/-- C3 counterexample: on a workflow already terminated at time 1, a
second `terminate` at time 2 changes rows (it re-stamps the failed
stage's and the workflow's `finished_on`), so the claim that a second
`terminate` changes no rows is false. -/
theorem C3_terminate_not_noop :
    terminate 2 (terminate 1
      (WorkflowState.mk [JobAttemptRow.mk 1 7 QueueStatus.queued false none]
        [TaskRow.mk 7 3 Status.in_progress false none]
        [StageRow.mk 3 Status.in_progress false none] none)) ≠
    terminate 1
      (WorkflowState.mk [JobAttemptRow.mk 1 7 QueueStatus.queued false none]
        [TaskRow.mk 7 3 Status.in_progress false none]
        [StageRow.mk 3 Status.in_progress false none] none) := by
  decide

/-- C3 amended: a second `terminate` kills nothing and changes no
`Task` and no `JobAttempt` row, but it re-stamps `status` and
`finished_on` on every stage with `successful=False` and the
workflow's `finished_on` with the current clock reading; it is a
no-op exactly when that reading is unchanged (third conjunct). -/
theorem C3_terminate_second_call (s : WorkflowState) (now1 now2 : Nat) :
    (terminate now2 (terminate now1 s)).tasks = (terminate now1 s).tasks ∧
    (terminate now2 (terminate now1 s)).jobAttempts = (terminate now1 s).jobAttempts ∧
    terminate now1 (terminate now1 s) = terminate now1 s := by
  have hq1 := terminate_no_queued now1 s
  have hterm2 := terminate_of_no_queued now2 hq1
  have hterm1 := terminate_of_no_queued now1 hq1
  refine ⟨by rw [hterm2], by rw [hterm2], ?_⟩
  rw [hterm1]
  have hmap : (terminate now1 s).stages.map (fun st =>
      if !st.successful then
        { st with status := Status.failed, finished_on := some now1 }
      else st) = (terminate now1 s).stages := by
    apply map_eq_self
    intro st hst
    by_cases hsucc : st.successful = true
    · rw [if_neg]
      rw [hsucc]
      simp
    · simp only [Bool.not_eq_true] at hsucc
      obtain ⟨h1, h2⟩ := terminate_stage_prop now1 s st hst hsucc
      rw [if_pos (by rw [hsucc]; rfl)]
      cases st with
      | mk id status successful finished_on =>
        simp only at h1 h2
        rw [h1, h2]
  rw [hmap]
  have hfin : (terminate now1 s).finished_on = some now1 := rfl
  rw [← hfin]

/-! ## C9: `add_stage` order bookkeeping -/

/-- A `None` aggregate means no stage has a non-null order. -/
theorem maxOrder_none {l : List StageOrderRow} (h : maxOrder l = none) :
    ∀ s ∈ l, s.order_in_workflow = none := by
  induction l with
  | nil => intro s hs; exact absurd hs (List.not_mem_nil s)
  | cons a t ih =>
    intro s hs
    unfold maxOrder at h
    cases ha : a.order_in_workflow with
    | none =>
      rw [ha] at h
      rcases List.mem_cons.mp hs with hsa | hst
      · rw [hsa]; exact ha
      · exact ih h s hst
    | some k =>
      rw [ha] at h
      cases hm : maxOrder t with
      | none => rw [hm] at h; exact absurd h (by simp)
      | some m => rw [hm] at h; exact absurd h (by simp)

/-- Every non-null order is bounded by the aggregate maximum. -/
theorem maxOrder_le {l : List StageOrderRow} {m : Nat} (h : maxOrder l = some m) :
    ∀ s ∈ l, ∀ k, s.order_in_workflow = some k → k ≤ m := by
  induction l generalizing m with
  | nil => intro s hs; exact absurd hs (List.not_mem_nil s)
  | cons a t ih =>
    intro s hs k hk
    unfold maxOrder at h
    cases ha : a.order_in_workflow with
    | none =>
      rw [ha] at h
      rcases List.mem_cons.mp hs with hsa | hst
      · rw [hsa] at hk; rw [hk] at ha; exact absurd ha (by simp)
      · exact ih h s hst k hk
    | some k0 =>
      rw [ha] at h
      cases hm : maxOrder t with
      | none =>
        rw [hm] at h
        simp only [Option.some.injEq] at h
        rcases List.mem_cons.mp hs with hsa | hst
        · rw [hsa] at hk
          rw [ha] at hk
          simp only [Option.some.injEq] at hk
          omega
        · rw [maxOrder_none hm s hst] at hk
          exact absurd hk (by simp)
      | some mt =>
        rw [hm] at h
        simp only [Option.some.injEq] at h
        rcases List.mem_cons.mp hs with hsa | hst
        · rw [hsa] at hk
          rw [ha] at hk
          simp only [Option.some.injEq] at hk
          rw [← hk, ← h]
          exact Nat.le_max_left k0 mt
        · have := ih hm s hst k hk
          rw [← h]
          exact Nat.le_trans this (Nat.le_max_right k0 mt)

/-- The aggregate maximum is attained by some member. -/
theorem maxOrder_mem {l : List StageOrderRow} {m : Nat} (h : maxOrder l = some m) :
    ∃ s ∈ l, s.order_in_workflow = some m := by
  induction l generalizing m with
  | nil => exact absurd h (by simp [maxOrder])
  | cons a t ih =>
    unfold maxOrder at h
    cases ha : a.order_in_workflow with
    | none =>
      rw [ha] at h
      obtain ⟨s, hs, hsm⟩ := ih h
      exact ⟨s, List.mem_cons_of_mem a hs, hsm⟩
    | some k0 =>
      rw [ha] at h
      cases hm : maxOrder t with
      | none =>
        rw [hm] at h
        simp only [Option.some.injEq] at h
        exact ⟨a, List.mem_cons_self a t, by rw [ha, h]⟩
      | some mt =>
        rw [hm] at h
        simp only [Option.some.injEq] at h
        rcases Nat.le_total mt k0 with hle | hle
        · refine ⟨a, List.mem_cons_self a t, ?_⟩
          rw [ha, ← h]
          exact congrArg some (Nat.max_eq_left hle).symm
        · obtain ⟨s, hs, hsm⟩ := ih hm
          refine ⟨s, List.mem_cons_of_mem a hs, ?_⟩
          rw [hsm, ← h]
          exact congrArg some (Nat.max_eq_right hle).symm

/-- A bound attained by some member is the aggregate maximum. -/
theorem maxOrder_bound {l : List StageOrderRow} {K : Nat}
    (hb : ∀ s ∈ l, ∀ k, s.order_in_workflow = some k → k ≤ K)
    (hw : ∃ s ∈ l, s.order_in_workflow = some K) :
    maxOrder l = some K := by
  cases hm : maxOrder l with
  | none =>
    obtain ⟨s, hs, hsK⟩ := hw
    rw [maxOrder_none hm s hs] at hsK
    exact absurd hsK (by simp)
  | some m =>
    obtain ⟨s, hs, hsK⟩ := hw
    obtain ⟨u, hu, hum⟩ := maxOrder_mem hm
    have h1 : K ≤ m := maxOrder_le hm s hs K hsK
    have h2 : m ≤ K := hb u hu m hum
    rw [Nat.le_antisymm h2 h1]

/-- Evaluating `add_stage` when a stage of that name exists. -/
theorem add_stage_spec (w : StageTable) (name : String) (s : StageOrderRow)
    (hf : w.stages.find? (fun r => r.name == name) = some s) :
    add_stage w name =
      ({ s with order_in_workflow := some (nextOrder (maxOrder w.stages)) },
       { w with
          stages := w.stages.map (fun r =>
            if r.id == s.id then
              { s with order_in_workflow := some (nextOrder (maxOrder w.stages)) }
            else r)
          finished_on := none }) := by
  unfold add_stage
  rw [hf]

/-- Evaluating `add_stage` when no stage of that name exists. -/
theorem add_stage_none_spec (w : StageTable) (name : String)
    (hf : w.stages.find? (fun r => r.name == name) = none) :
    add_stage w name =
      (StageOrderRow.mk w.nextId name (some (nextOrder (maxOrder w.stages))),
       { w with
          stages := w.stages ++
            [StageOrderRow.mk w.nextId name (some (nextOrder (maxOrder w.stages)))]
          nextId := w.nextId + 1 }) := by
  unfold add_stage
  rw [hf]

/-- A list on which `find?` fails contributes nothing to `find?` over
an append. -/
theorem find?_append_of_none {α : Type} {p : α → Bool} {l1 : List α} (l2 : List α)
    (h : l1.find? p = none) : (l1 ++ l2).find? p = l2.find? p := by
  induction l1 with
  | nil => rfl
  | cons a t ih =>
    cases hp : p a with
    | true => rw [List.find?_cons_of_pos _ hp] at h; exact absurd h (by simp)
    | false =>
      rw [List.find?_cons_of_neg _ (by simp [hp])] at h
      rw [List.cons_append, List.find?_cons_of_neg _ (by simp [hp])]
      exact ih h

/-- After replacing the found row (by primary key) with a row of the
same name, `find?` by that name returns the replacement. -/
theorem find?_map_replace (name : String) (s s' : StageOrderRow)
    (hname : s'.name = s.name) :
    ∀ l : List StageOrderRow, l.find? (fun r => r.name == name) = some s →
      (l.map (fun r => if r.id == s.id then s' else r)).find?
        (fun r => r.name == name) = some s' := by
  have findCons : ∀ (b : StageOrderRow) (rest : List StageOrderRow),
      (b.name == name) = true →
      List.find? (fun r => r.name == name) (b :: rest) = some b :=
    fun b rest hb => List.find?_cons_of_pos rest hb
  have findConsNeg : ∀ (b : StageOrderRow) (rest : List StageOrderRow),
      ¬(b.name == name) = true →
      List.find? (fun r => r.name == name) (b :: rest) =
        List.find? (fun r => r.name == name) rest :=
    fun b rest hb => List.find?_cons_of_neg rest hb
  intro l
  induction l with
  | nil => intro h; exact absurd h (by simp)
  | cons a t ih =>
    intro h
    have hps : (s.name == name) = true := by
      have h' := List.find?_some h
      exact h'
    have hps' : (s'.name == name) = true := by
      rw [hname]
      exact hps
    by_cases hp : (a.name == name) = true
    · rw [findCons a t hp] at h
      have ha : a = s := by simpa using h
      rw [List.map_cons]
      have hfa : (if (a.id == s.id) = true then s' else a) = s' := by
        rw [ha]
        simp
      rw [hfa]
      exact findCons s' _ hps'
    · rw [findConsNeg a t hp] at h
      rw [List.map_cons]
      by_cases hid : (a.id == s.id) = true
      · have hfa : (if (a.id == s.id) = true then s' else a) = s' := by
          rw [if_pos hid]
        rw [hfa]
        exact findCons s' _ hps'
      · have hfa : (if (a.id == s.id) = true then s' else a) = a := by
          rw [if_neg hid]
        rw [hfa]
        rw [findConsNeg a _ hp]
        exact ih h

/-- C9 amended: `add_stage(name)` called twice returns the same Stage
row (same primary key), but each call reassigns
`order_in_workflow = max+1` over the stages at call time, so after the
first call the aggregate maximum is the first call's order and the
second call stores that order plus one — the stage row is updated, not
left unchanged. -/
theorem C9_add_stage_same_row (w : StageTable) (name : String) :
    ((add_stage (add_stage w name).2 name).1.id = (add_stage w name).1.id) ∧
    (maxOrder (add_stage w name).2.stages = some (nextOrder (maxOrder w.stages))) ∧
    ((add_stage (add_stage w name).2 name).1.order_in_workflow =
      some (nextOrder (maxOrder w.stages) + 1)) := by
  have hb : ∀ r ∈ w.stages, ∀ k, r.order_in_workflow = some k →
      k ≤ nextOrder (maxOrder w.stages) := by
    intro r hr k hk
    cases hmo : maxOrder w.stages with
    | none =>
      rw [maxOrder_none hmo r hr] at hk
      exact absurd hk (by simp)
    | some m =>
      have := maxOrder_le hmo r hr k hk
      simp only [nextOrder]
      omega
  cases hf : w.stages.find? (fun r => r.name == name) with
  | some s =>
    have h1 := add_stage_spec w name s hf
    have hmax1 : maxOrder (add_stage w name).2.stages
        = some (nextOrder (maxOrder w.stages)) := by
      simp only [h1]
      apply maxOrder_bound
      · intro r' hr' k hk
        obtain ⟨r, hr, hfr⟩ := List.mem_map.mp hr'
        by_cases hid : (r.id == s.id) = true
        · rw [if_pos hid] at hfr
          rw [← hfr] at hk
          simp only [Option.some.injEq] at hk
          omega
        · rw [if_neg hid] at hfr
          rw [← hfr] at hk
          exact hb r hr k hk
      · refine ⟨if s.id == s.id then
            { s with order_in_workflow := some (nextOrder (maxOrder w.stages)) }
          else s,
          List.mem_map_of_mem _ (List.mem_of_find?_eq_some hf), ?_⟩
        simp
    have hf2 : (add_stage w name).2.stages.find? (fun r => r.name == name)
        = some { s with order_in_workflow := some (nextOrder (maxOrder w.stages)) } := by
      simp only [h1]
      exact find?_map_replace name s
        { s with order_in_workflow := some (nextOrder (maxOrder w.stages)) }
        rfl w.stages hf
    have h2 := add_stage_spec (add_stage w name).2 name _ hf2
    refine ⟨?_, hmax1, ?_⟩
    · rw [h2, h1]
    · rw [h2, hmax1]
      simp [nextOrder]
  | none =>
    have h1 := add_stage_none_spec w name hf
    have hmax1 : maxOrder (add_stage w name).2.stages
        = some (nextOrder (maxOrder w.stages)) := by
      simp only [h1]
      apply maxOrder_bound
      · intro r' hr' k hk
        rcases List.mem_append.mp hr' with hrl | hrr
        · exact hb r' hrl k hk
        · rw [List.mem_singleton.mp hrr] at hk
          simp only [Option.some.injEq] at hk
          omega
      · exact ⟨StageOrderRow.mk w.nextId name (some (nextOrder (maxOrder w.stages))),
          List.mem_append_right _ (List.mem_singleton.mpr rfl), rfl⟩
    have hf2 : (add_stage w name).2.stages.find? (fun r => r.name == name)
        = some (StageOrderRow.mk w.nextId name
            (some (nextOrder (maxOrder w.stages)))) := by
      simp only [h1]
      rw [find?_append_of_none _ hf]
      apply List.find?_cons_of_pos
      simp
    have h2 := add_stage_spec (add_stage w name).2 name _ hf2
    refine ⟨?_, hmax1, ?_⟩
    · rw [h2, h1]
    · rw [h2, hmax1]
      simp [nextOrder]

/-- Witness for C9's amended theorem at a concrete workflow: the ids
agree and the second call stores order 2. -/
theorem C9_witness :
    ((add_stage (add_stage (StageTable.mk [] 1 none) "s").2 "s").1.id =
      (add_stage (StageTable.mk [] 1 none) "s").1.id) ∧
    ((add_stage (add_stage (StageTable.mk [] 1 none) "s").2 "s").1.order_in_workflow =
      some (nextOrder (maxOrder (StageTable.mk [] 1 none).stages) + 1)) :=
  ⟨(C9_add_stage_same_row (StageTable.mk [] 1 none) "s").1,
   (C9_add_stage_same_row (StageTable.mk [] 1 none) "s").2.2⟩

/-! ## C8: `TaskFile` format inference -/

/-- `takeWhile`/`dropWhile` at the first failing element of an
append. -/
theorem takeWhile_dropWhile_append {p : Char → Bool} {l1 : List Char} (d : Char)
    (l2 : List Char) (h1 : ∀ c ∈ l1, p c = true) (hd : p d = false) :
    (l1 ++ d :: l2).takeWhile p = l1 ∧ (l1 ++ d :: l2).dropWhile p = d :: l2 := by
  induction l1 with
  | nil =>
    refine ⟨?_, ?_⟩
    · rw [List.nil_append, List.takeWhile_cons, if_neg (by simp [hd])]
    · rw [List.nil_append, List.dropWhile_cons, if_neg (by simp [hd])]
  | cons c cs ih =>
    have hc : p c = true := h1 c (List.mem_cons_self c cs)
    have ih' := ih (fun b hb => h1 b (List.mem_cons_of_mem c hb))
    refine ⟨?_, ?_⟩
    · rw [List.cons_append, List.takeWhile_cons, if_pos hc, ih'.1]
    · rw [List.cons_append, List.dropWhile_cons, if_pos hc, ih'.2]

/-- The head of a non-empty `dropWhile` fails the predicate. -/
theorem dropWhile_head_false (p : Char → Bool) :
    ∀ (l : List Char) {d : Char} {t : List Char}, l.dropWhile p = d :: t →
      p d = false := by
  intro l
  induction l with
  | nil => intro d t h; exact absurd h (by simp)
  | cons c cs ih =>
    intro d t h
    rw [List.dropWhile_cons] at h
    by_cases hc : p c = true
    · rw [if_pos hc] at h
      exact ih h
    · rw [if_neg hc] at h
      simp only [List.cons.injEq] at h
      cases hpc : p c with
      | true => exact absurd hpc hc
      | false => rw [← h.1]; exact hpc

/-- The core of the first alternative computes the group on a
decomposed reversed tail: a dot-free non-empty run, the delimiting
dot, and a non-newline character before it. -/
theorem revGroup1Core_gz {x pre : List Char} {c : Char} (hx : x ≠ [])
    (hnd : '.' ∉ x) (hc : c ≠ '\n') :
    revGroup1Core (x.reverse ++ '.' :: c :: pre) = some (x ++ ['.', 'g', 'z']) := by
  have hmem : ∀ b ∈ x.reverse, (b != '.') = true := by
    intro b hb
    rw [List.mem_reverse] at hb
    have hbd : b ≠ '.' := fun he => hnd (he ▸ hb)
    simp [hbd]
  have hdot : (('.' : Char) != '.') = false := by decide
  have htd := takeWhile_dropWhile_append '.' (c :: pre) hmem hdot
  simp only [revGroup1Core]
  rw [htd.1, htd.2]
  rw [if_neg (by simp [hx])]
  show (if ('.' : Char) = '.' ∧ c ≠ '\n' then
      some (x.reverse.reverse ++ ['.', 'g', 'z']) else none)
    = some (x ++ ['.', 'g', 'z'])
  rw [if_pos ⟨rfl, hc⟩, List.reverse_reverse]

/-- Evaluating the first alternative on a reversed path ending `zg.`
(no trailing newline). -/
theorem revGroup1_eq_core_nonl (rest : List Char) :
    revGroup1 ('z' :: 'g' :: '.' :: rest) = revGroup1Core rest := by
  rfl

/-- Evaluating the first alternative on a reversed path ending `zg.`
after one trailing newline. -/
theorem revGroup1_eq_core_nl (rest : List Char) :
    revGroup1 ('\n' :: 'z' :: 'g' :: '.' :: rest) = revGroup1Core rest := by
  rfl

/-- A decomposition on which the search's first alternative fires
makes `revGroup1` return `X.gz`. -/
theorem revGroup1_gz {path pre x : List Char} {c : Char} {nl : Bool}
    (h : gzSearchMatch path pre c x nl) :
    revGroup1 path.reverse = some (x ++ ['.', 'g', 'z']) := by
  obtain ⟨hc, hx, hnd, hpath⟩ := h
  cases nl with
  | false =>
    have hrev : path.reverse =
        'z' :: 'g' :: '.' :: (x.reverse ++ '.' :: c :: pre.reverse) := by
      rw [hpath]
      simp [List.reverse_append]
    rw [hrev, revGroup1_eq_core_nonl]
    exact revGroup1Core_gz hx hnd hc
  | true =>
    have hrev : path.reverse =
        '\n' :: 'z' :: 'g' :: '.' :: (x.reverse ++ '.' :: c :: pre.reverse) := by
      rw [hpath]
      simp [List.reverse_append]
    rw [hrev, revGroup1_eq_core_nl]
    exact revGroup1Core_gz hx hnd hc

/-- Inversion of the first alternative's core: a successful core run
exhibits the dot-free group, the delimiting dot and the non-newline
character before it. -/
theorem revGroup1Core_some {rest g : List Char} (h : revGroup1Core rest = some g) :
    ∃ x c pre, x ≠ [] ∧ '.' ∉ x ∧ c ≠ '\n' ∧
      rest = x.reverse ++ '.' :: c :: pre ∧ g = x ++ ['.', 'g', 'z'] := by
  simp only [revGroup1Core] at h
  split at h
  case isTrue => exact absurd h (by simp)
  case isFalse hx =>
    cases hdw : rest.dropWhile (fun c => c != '.') with
    | nil => rw [hdw] at h; exact absurd h (by simp)
    | cons d rest1 =>
      cases rest1 with
      | nil => rw [hdw] at h; exact absurd h (by simp)
      | cons c pre =>
        rw [hdw] at h
        replace h : (if d = '.' ∧ c ≠ '\n' then
            some ((rest.takeWhile (fun b => b != '.')).reverse ++ ['.', 'g', 'z'])
          else none) = some g := h
        split at h
        case isFalse => exact absurd h (by simp)
        case isTrue hcond =>
          obtain ⟨hdeq, hcnl⟩ := hcond
          simp only [Option.some.injEq] at h
          subst hdeq
          have hsplit : rest.takeWhile (fun b => b != '.') ++ '.' :: c :: pre
              = rest := by
            rw [← hdw]
            exact List.takeWhile_append_dropWhile _ rest
          refine ⟨(rest.takeWhile (fun b => b != '.')).reverse, c, pre,
            by simp [hx], ?_, hcnl, ?_, h.symm⟩
          · intro hmem
            rw [List.mem_reverse] at hmem
            have := List.mem_takeWhile_imp hmem
            simp at this
          · rw [List.reverse_reverse]
            exact hsplit.symm

/-- If the first regex alternative matches the reversed path, the path
has a `gzSearchMatch` decomposition and the group is `X.gz`. -/
theorem revGroup1_some {r g : List Char} (h : revGroup1 r = some g) :
    ∃ pre c x nl, gzSearchMatch r.reverse pre c x nl ∧ g = x ++ ['.', 'g', 'z'] := by
  rcases r with _ | ⟨c1, _ | ⟨c2, _ | ⟨c3, rest⟩⟩⟩
  · exact absurd h (by simp [revGroup1])
  · exact absurd h (by simp [revGroup1])
  · exact absurd h (by simp [revGroup1])
  simp only [revGroup1] at h
  split at h
  case isTrue hc =>
    obtain ⟨hz, hg, hd⟩ := hc
    subst hz hg hd
    obtain ⟨x, c, pre, hx, hnd, hcnl, hrest, hgx⟩ := revGroup1Core_some h
    refine ⟨pre.reverse, c, x, false, ⟨hcnl, hx, hnd, ?_⟩, hgx⟩
    rw [hrest]
    simp [List.reverse_append]
  case isFalse hne1 =>
    cases rest with
    | nil => exact absurd h (by simp)
    | cons c4 rest2 =>
      replace h : (if c1 = '\n' ∧ c2 = 'z' ∧ c3 = 'g' ∧ c4 = '.' then
          revGroup1Core rest2 else none) = some g := h
      split at h
      case isFalse => exact absurd h (by simp)
      case isTrue hc =>
        obtain ⟨h1, h2, h3, h4⟩ := hc
        subst h1 h2 h3 h4
        obtain ⟨x, c, pre, hx, hnd, hcnl, hrest, hgx⟩ := revGroup1Core_some h
        refine ⟨pre.reverse, c, x, true, ⟨hcnl, hx, hnd, ?_⟩, hgx⟩
        rw [hrest]
        simp [List.reverse_append]

/-- If the second regex alternative matches the reversed path, the
path ends in a dot followed by a non-empty dot-free extension (a
trailing newline included), and the group is that extension. -/
theorem revGroup2_some {r g : List Char} (h : revGroup2 r = some g) :
    ∃ a e : List Char, e ≠ [] ∧ '.' ∉ e ∧ r.reverse = a ++ '.' :: e ∧ g = e := by
  simp only [revGroup2] at h
  split at h
  case isTrue => exact absurd h (by simp)
  case isFalse hx =>
    cases hdw : r.dropWhile (fun c => c != '.') with
    | nil => rw [hdw] at h; exact absurd h (by simp)
    | cons d rest =>
      rw [hdw] at h
      have hdfalse : (d != '.') = false :=
        dropWhile_head_false (fun c => c != '.') r hdw
      have hdeq : d = '.' := bne_eq_false_iff_eq.mp hdfalse
      replace h : (if d = '.' then
          some ((r.takeWhile (fun c => c != '.')).reverse)
        else none) = some g := h
      rw [if_pos hdeq] at h
      simp only [Option.some.injEq] at h
      subst hdeq
      have hsplit : r.takeWhile (fun c => c != '.') ++ '.' :: rest = r := by
        rw [← hdw]
        exact List.takeWhile_append_dropWhile _ r
      refine ⟨rest.reverse, (r.takeWhile (fun c => c != '.')).reverse,
        by simp [hx], ?_, ?_, h.symm⟩
      · intro hmem
        rw [List.mem_reverse] at hmem
        have := List.mem_takeWhile_imp hmem
        simp at this
      · conv_lhs => rw [← hsplit]
        simp [List.reverse_append]

/-- C8 counterexample: the path `a\n.x.gz` matches the claim's
`<something>.<X>.gz` shape with `something = "a\n"` and `X = "x"`, so
the claim demands `fmt = "x.gz"`; but Python's `.+` cannot cross the
newline before that dot, so the first regex alternative fails and the
code stores `fmt = "gz"`. -/
theorem C8_fmt_newline_counterexample :
    gzDecomp ['a', '\n', '.', 'x', '.', 'g', 'z'] ['a', '\n'] ['x'] ∧
    TaskFile.make ['a', '\n', '.', 'x', '.', 'g', 'z'] none none =
      some (TaskFile.mk ['a', '\n', '.', 'x', '.', 'g', 'z']
        (some ['g', 'z']) (some ['g', 'z'])) ∧
    some (['g', 'z'] : List Char) ≠ some (['x'] ++ ['.', 'g', 'z']) := by
  refine ⟨⟨?_, ?_, ?_, ?_⟩, ?_, ?_⟩ <;> decide

/-- C8 amended: for a `TaskFile` constructed with a non-empty path and
no explicit `fmt`: when the path decomposes as `<something>.<X>.gz`,
optionally followed by one final newline, with `X` non-empty and
dot-free and the last character of `<something>` not a newline, `fmt`
is `X.gz`; otherwise `fmt` is the text after the path's last dot (a
trailing newline included); and since no name was given, `name` is
set equal to `fmt`. -/
theorem C8_taskfile_fmt_inference (path : List Char) (tf : TaskFile)
    (hne : path ≠ []) (hmk : TaskFile.make path none none = some tf) :
    (∀ pre c x nl, gzSearchMatch path pre c x nl →
      tf.fmt = some (x ++ ['.', 'g', 'z'])) ∧
    ((¬ ∃ pre c x nl, gzSearchMatch path pre c x nl) →
      ∃ a e, e ≠ [] ∧ '.' ∉ e ∧ path = a ++ '.' :: e ∧ tf.fmt = some e) ∧
    tf.name = tf.fmt := by
  unfold TaskFile.make at hmk
  rw [if_pos ⟨rfl, hne⟩] at hmk
  cases hif : inferFmt path with
  | none =>
    rw [hif] at hmk
    exact absurd hmk (by simp)
  | some f =>
    rw [hif] at hmk
    simp only [Option.some.injEq] at hmk
    have hfmt : tf.fmt = some f := by rw [← hmk]
    have hname : tf.name = some f := by
      rw [← hmk]
      simp
    refine ⟨?_, ?_, by rw [hname, hfmt]⟩
    · intro pre c x nl hdec
      have h1 := revGroup1_gz hdec
      unfold inferFmt at hif
      rw [h1] at hif
      simp only [Option.some.injEq] at hif
      rw [hfmt, hif]
    · intro hnex
      unfold inferFmt at hif
      cases hg1 : revGroup1 path.reverse with
      | some g =>
        obtain ⟨pre, c, x, nl, hdec, _⟩ := revGroup1_some hg1
        rw [List.reverse_reverse] at hdec
        exact absurd ⟨pre, c, x, nl, hdec⟩ hnex
      | none =>
        rw [hg1] at hif
        obtain ⟨a, e, he, hnd, hpath, hge⟩ := revGroup2_some hif
        rw [List.reverse_reverse] at hpath
        exact ⟨a, e, he, hnd, hpath, by rw [hfmt, hge]⟩

/-- Witness for C8's amended theorem at the path `a.b.gz`: the
inferred format is `b.gz` and the name equals the format. -/
theorem C8_witness :
    (TaskFile.mk ['a', '.', 'b', '.', 'g', 'z'] (some ['b', '.', 'g', 'z'])
        (some ['b', '.', 'g', 'z'])).fmt = some (['b'] ++ ['.', 'g', 'z']) ∧
    (TaskFile.mk ['a', '.', 'b', '.', 'g', 'z'] (some ['b', '.', 'g', 'z'])
        (some ['b', '.', 'g', 'z'])).name =
      (TaskFile.mk ['a', '.', 'b', '.', 'g', 'z'] (some ['b', '.', 'g', 'z'])
        (some ['b', '.', 'g', 'z'])).fmt := by
  have h := C8_taskfile_fmt_inference ['a', '.', 'b', '.', 'g', 'z']
    (TaskFile.mk ['a', '.', 'b', '.', 'g', 'z'] (some ['b', '.', 'g', 'z'])
      (some ['b', '.', 'g', 'z'])) (by decide) (by decide)
  exact ⟨h.1 [] 'a' ['b'] false ⟨by decide, by decide, by decide, by decide⟩, h.2.2⟩

end Cosmos
